import Mathlib

set_option maxHeartbeats 1000000

/- Verification of the text segmentation and content classification logic of
   the Nelson-books repository.  The relevant Python code lives in
   data_processor.py (chunk_text, extract_keywords) and in
   create_new_schema_dataset.py (extract_keywords, categorize_content).
   Strings are modelled as lists of characters, restricted to the ASCII
   behaviour of the Python string operations involved; the external tiktoken
   tokenizer is modelled as an arbitrary token counting function; the CPython
   set iteration order behind list(set(...)) is modelled as an explicit order
   parameter constrained to produce a duplicate free reordering. -/

/-- ASCII model of the Python whitespace class (the regex class backslash-s
    and the default str.strip characters). -/
def pyIsSpace (c : Char) : Bool :=
  c = ' ' || c = '\t' || c = '\n' || c = '\r' || c = '\x0B' || c = '\x0C'

/-- Sentence terminators of the chunk_text splitting pattern. -/
def sentenceEnd (c : Char) : Bool :=
  c = '.' || c = '!' || c = '?'

/-- ASCII model of the Python word character class used by the word boundary
    assertion in the keyword regexes. -/
def isWordChar (c : Char) : Bool :=
  c.isAlphanum || c = '_'

/-- Word character status of the character before the scan position;
    outside the string counts as non word. -/
def wordOpt : Option Char → Bool
  | none => false
  | some c => isWordChar c

/-- Word character status of the character at the scan position. -/
def wordHead : List Char → Bool
  | [] => false
  | c :: _ => isWordChar c

/-- ASCII model of Python str.lower on a single character. -/
def pyLowerChar (c : Char) : Char :=
  if 65 ≤ c.toNat ∧ c.toNat ≤ 90 then Char.ofNat (c.toNat + 32) else c

/-- Python str.lower on a whole string. -/
def toLowerL (s : List Char) : List Char :=
  s.map pyLowerChar

/-- Embedding of re.split on the pattern: lookbehind for one of . ! ?
    followed by one or more whitespace characters, as used by chunk_text in
    data_processor.py line 96.  The accumulator holds the piece currently
    being built, in reverse; its head is the character immediately before the
    scanning position, which realises the lookbehind.  A maximal whitespace
    run after a sentence terminator is a delimiter and is dropped. -/
def splitAux : List Char → List Char → List (List Char)
  | acc, [] => [acc.reverse]
  | acc, c :: rest =>
    if sentenceEnd (acc.headD ' ') && pyIsSpace c then
      acc.reverse :: splitAux [] (rest.dropWhile pyIsSpace)
    else
      splitAux (c :: acc) rest
termination_by acc cs => cs.length
decreasing_by
  · exact Nat.lt_succ_of_le (List.dropWhile_sublist pyIsSpace).length_le
  · simp

/-- The sentence list computed at data_processor.py line 96. -/
def splitSentences (text : List Char) : List (List Char) :=
  splitAux [] text

/-- Python str.strip (leading and trailing whitespace removal). -/
def pyStrip (s : List Char) : List Char :=
  ((s.dropWhile pyIsSpace).reverse.dropWhile pyIsSpace).reverse

/-- The accumulation step of chunk_text line 109: append a sentence to the
    running chunk, inserting a single space unless the chunk is empty. -/
def pyAppendSent (acc s : List Char) : List Char :=
  if acc = [] then s else acc ++ ' ' :: s

/-- The string built by folding pyAppendSent from the empty chunk; this is
    the value of the Python variable current_chunk after accumulating the
    given sentences in order. -/
def pyJoin (g : List (List Char)) : List Char :=
  g.foldl pyAppendSent []

/-- The main loop of chunk_text, data_processor.py lines 101 to 113.  The
    three arguments after the tokenizer and budget are the remaining
    sentences, the Python variables current_chunk and current_tokens. -/
def chunkAux (tok : List Char → Nat) (maxTokens : Nat) :
    List (List Char) → List Char → Nat → List (List Char)
  | [], cur, _ => if cur = [] then [] else [pyStrip cur]
  | s :: ss, cur, t =>
    if t + tok s > maxTokens ∧ cur ≠ [] then
      pyStrip cur :: chunkAux tok maxTokens ss s (tok s)
    else
      chunkAux tok maxTokens ss (pyAppendSent cur s) (t + tok s)

/-- Embedding of chunk_text, data_processor.py lines 94 to 115.  The token
    counting function tok models len of self.tokenizer.encode; the Python
    default for maxTokens is 800. -/
def chunk_text (tok : List Char → Nat) (maxTokens : Nat) (text : List Char) :
    List (List Char) :=
  chunkAux tok maxTokens (splitSentences text) [] 0

/-- Ghost variant of the chunk_text loop that records, for each emitted
    chunk, the list of sentences accumulated into it instead of the joined
    string.  The branch conditions are literally those of chunkAux, with
    current_chunk replaced by its value pyJoin of the recorded sentences. -/
def chunkGroups (tok : List Char → Nat) (maxTokens : Nat) :
    List (List Char) → List (List Char) → Nat → List (List (List Char))
  | [], cur, _ => if pyJoin cur = [] then [] else [cur]
  | s :: ss, cur, t =>
    if t + tok s > maxTokens ∧ pyJoin cur ≠ [] then
      cur :: chunkGroups tok maxTokens ss [s] (tok s)
    else
      chunkGroups tok maxTokens ss (cur ++ [s]) (t + tok s)

/-- Removing every whitespace character; used to compare texts while
    ignoring the whitespace consumed by splitting and joining. -/
def eraseSpaces (s : List Char) : List Char :=
  s.filter (fun c => !pyIsSpace c)

/- ------------------------------------------------------------------ -/
/- A small backtracking regular expression engine, used to embed the   -/
/- re.findall based keyword extraction.                                -/
/- ------------------------------------------------------------------ -/

/-- Syntax of the regular expression fragment used by the keyword
    extraction patterns: character classes, sequencing, ordered
    alternation, greedy option, greedy star and the word boundary
    assertion. -/
inductive RE : Type where
  | eps : RE
  | cls : (Char → Bool) → RE
  | seq : RE → RE → RE
  | alt : RE → RE → RE
  | opt : RE → RE
  | star : RE → RE
  | wb : RE

/-- A literal string as a regular expression. -/
def litRE (s : List Char) : RE :=
  s.foldr (fun c r => RE.seq (RE.cls (fun d => d = c)) r) RE.eps

/-- One or more repetitions, the plus operator. -/
def plusRE (r : RE) : RE :=
  RE.seq r (RE.star r)

/-- Ordered alternation of a list of expressions, first alternative
    preferred, as in the Python engine. -/
def altRE : List RE → RE
  | [] => RE.cls (fun _ => false)
  | [r] => r
  | r :: rest => RE.alt r (altRE rest)

/-- Ordered alternation of literal words. -/
def litsRE (ws : List String) : RE :=
  altRE (ws.map (fun w => litRE w.toList))

/-- A word bounded alternation of literal words, the shape of the patterns
    that read as boundary, group of alternatives, boundary. -/
def wordRE (ws : List String) : RE :=
  RE.seq RE.wb (RE.seq (litsRE ws) RE.wb)

/-- Greedy iteration of a sub matcher, at most fuel times.  Every starred
    sub expression of the embedded patterns consumes at least one character
    per iteration, so with fuel at least the length of the remaining input
    this agrees with the unbounded Python semantics. -/
def starMatch (m : Option Char → List Char → List (Option Char × List Char)) :
    Nat → Option Char → List Char → List (Option Char × List Char)
  | 0, p, s => [(p, s)]
  | n + 1, p, s =>
    ((m p s).flatMap fun x => starMatch m n x.1 x.2) ++ [(p, s)]

/-- Backtracking matcher.  Given the character preceding the current
    position (for the word boundary assertion) and the remaining input, it
    returns every state reachable by matching the expression, ordered by the
    Python preference: alternatives left to right, option and star greedy.
    The head of the list is the match the Python engine commits to. -/
def reMatch (fuel : Nat) : RE → Option Char → List Char → List (Option Char × List Char)
  | RE.eps, p, s => [(p, s)]
  | RE.cls f, p, s =>
    match s with
    | [] => []
    | c :: r => if f c then [(some c, r)] else []
  | RE.seq a b, p, s => (reMatch fuel a p s).flatMap fun x => reMatch fuel b x.1 x.2
  | RE.alt a b, p, s => reMatch fuel a p s ++ reMatch fuel b p s
  | RE.opt a, p, s => reMatch fuel a p s ++ [(p, s)]
  | RE.star a, p, s => starMatch (reMatch fuel a) fuel p s
  | RE.wb, p, s => if wordOpt p = wordHead s then [] else [(p, s)]

/-- Scanner for re.findall: leftmost, non overlapping matches; after a match
    the scan resumes at its end, otherwise it advances one character.  The
    first fuel argument bounds the number of scan steps; every embedded
    pattern consumes at least one character per match, so length of input
    plus one suffices.  Zero length matches, impossible for the embedded
    patterns, are skipped. -/
def findallAux (r : RE) : Nat → Option Char → List Char → List (List Char)
  | 0, _, _ => []
  | fuel + 1, p, s =>
    match reMatch (s.length + 1) r p s with
    | [] =>
      match s with
      | [] => []
      | c :: rest => findallAux r fuel (some c) rest
    | x :: _ =>
      if s.length - x.2.length = 0 then
        match s with
        | [] => []
        | c :: rest => findallAux r fuel (some c) rest
      else
        s.take (s.length - x.2.length) :: findallAux r fuel x.1 x.2

/-- Python re.findall of a pattern without capturing groups: the list of
    matched substrings, scanning from the start of the string. -/
def pyFindall (r : RE) (s : List Char) : List (List Char) :=
  findallAux r (s.length + 1) none s

/- ------------------------------------------------------------------ -/
/- The keyword patterns of create_new_schema_dataset.py, transcribed   -/
/- under IGNORECASE semantics on the already lowercased input.         -/
/- ------------------------------------------------------------------ -/

/-- Pattern at create_new_schema_dataset.py line 19: dosing units. -/
def nsPat1 : RE := wordRE ["mg/kg", "mcg/kg", "units/kg"]

/-- Pattern line 20: medication amounts; digits, an optional dash digits
    group, optional whitespace, then a unit, alternatives in source order. -/
def nsPat2 : RE :=
  RE.seq RE.wb (RE.seq (plusRE (RE.cls Char.isDigit))
    (RE.seq (RE.opt (RE.seq (RE.cls (fun c => c = '-')) (plusRE (RE.cls Char.isDigit))))
      (RE.seq (RE.star (RE.cls pyIsSpace))
        (RE.seq (litsRE ["mg", "mcg", "units", "ml", "cc"]) RE.wb))))

/-- Pattern line 21: common medications. -/
def nsPat3 : RE :=
  wordRE ["amoxicillin", "ibuprofen", "acetaminophen", "prednisone",
    "albuterol", "azithromycin"]

/-- Pattern line 22: temperature related terms; the degree letters appear
    lowercased because the text is lowercased and matching ignores case. -/
def nsPat4 : RE := wordRE ["fever", "temperature", "°c", "°f"]

/-- Pattern line 23: common conditions. -/
def nsPat5 : RE :=
  wordRE ["asthma", "pneumonia", "bronchitis", "otitis", "dermatitis", "eczema"]

/-- Pattern line 24: age groups. -/
def nsPat6 : RE := wordRE ["infant", "child", "pediatric", "neonatal", "adolescent"]

/-- Pattern line 25: clinical terms. -/
def nsPat7 : RE := wordRE ["treatment", "therapy", "management", "diagnosis", "symptoms"]

/-- The medical_patterns list of create_new_schema_dataset.py lines 18 to 26,
    in source order. -/
def nsMedicalPatterns : List RE :=
  [nsPat1, nsPat2, nsPat3, nsPat4, nsPat5, nsPat6, nsPat7]

/-- Helper turning a list of string literals into character lists. -/
def strsL (ws : List String) : List (List Char) :=
  ws.map String.toList

/-- Starts with test on character lists. -/
def listPre : List Char → List Char → Bool
  | [], _ => true
  | _ :: _, [] => false
  | a :: as, b :: bs => a = b && listPre as bs

/-- The Python substring test, needle in haystack. -/
def containsSub (needle : List Char) : List Char → Bool
  | [] => needle.isEmpty
  | c :: rest => listPre needle (c :: rest) || containsSub needle rest

/-- The flat medical_terms list of create_new_schema_dataset.py lines 37 to
    42, in source order. -/
def nsMedicalTerms : List (List Char) :=
  strsL ["fever", "infection", "antibiotic", "treatment", "diagnosis",
    "symptoms", "pediatric", "child", "infant", "adolescent", "dosage",
    "medication", "therapy", "management", "clinical", "patient", "disease",
    "disorder", "syndrome", "condition", "acute", "chronic", "severe", "mild"]

/-- Contract of the function that list applied to a Python set realises:
    CPython set iteration yields each distinct inserted element exactly
    once, in an order fixed by the process hash seed; list(set(...)) is
    modelled as an arbitrary but fixed function with these properties,
    applied to the insertion sequence. -/
def SetOrder (ord : List (List Char) → List (List Char)) : Prop :=
  ∀ l, (ord l).Nodup ∧ ∀ x, x ∈ ord l ↔ x ∈ l

/-- The keyword insertion sequence built by extract_keywords of
    create_new_schema_dataset.py lines 28 to 46: all pattern matches over
    the lowercased content in pattern order, then the standalone terms
    present as substrings, in term order. -/
def nsCandidates (content : List Char) : List (List Char) :=
  (nsMedicalPatterns.map (fun p => pyFindall p (toLowerL content))).flatten ++
    nsMedicalTerms.filter (fun t => containsSub t (toLowerL content))

namespace CreateNewSchema

/-- Embedding of extract_keywords, create_new_schema_dataset.py lines 14 to
    49: the keyword insertion sequence, deduplicated through the set order
    parameter as list(set(...)) does, truncated to ten entries. -/
def extract_keywords (ord : List (List Char) → List (List Char))
    (content : List Char) : List (List Char) :=
  (ord (nsCandidates content)).take 10

end CreateNewSchema

/-- The category_mapping dictionary of create_new_schema_dataset.py lines 55
    to 77, as the ordered association list that dict iteration yields. -/
def categoryMapping : List (List Char × List Char) :=
  [("allergic", "Allergy and Immunology"),
   ("cardiovascular", "Cardiology"),
   ("respiratory", "Pulmonology"),
   ("nervous", "Neurology"),
   ("endocrine", "Endocrinology"),
   ("digestive", "Gastroenterology"),
   ("blood", "Hematology"),
   ("skin", "Dermatology"),
   ("bone", "Orthopedics"),
   ("ear", "Otolaryngology"),
   ("fluid", "Nephrology"),
   ("growth", "Developmental Pediatrics"),
   ("metabolic", "Metabolism"),
   ("immunology", "Immunology"),
   ("cancer", "Oncology"),
   ("urology", "Urology"),
   ("gynecologic", "Gynecology"),
   ("rehabilitation", "Rehabilitation Medicine"),
   ("rheumatic", "Rheumatology"),
   ("behavioral", "Psychiatry"),
   ("learning", "Developmental Pediatrics")].map
    (fun p => (p.1.toList, p.2.toList))

/-- The category loop of categorize_content, create_new_schema_dataset.py
    lines 81 to 86: scan the mapping in order, return the first category
    whose key occurs in the lowercased chapter, else the default. -/
def lookupCategory : List (List Char × List Char) → List Char → List Char
  | [], _ => "General Pediatrics".toList
  | (key, cat) :: rest, ch =>
    if containsSub key ch then cat else lookupCategory rest ch

/-- The Python test: any term of the list occurs in the string. -/
def anyTermIn (ts : List (List Char)) (s : List Char) : Bool :=
  ts.any (fun t => containsSub t s)

def neonatalTerms : List (List Char) := strsL ["newborn", "neonate", "birth"]

def infantTerms : List (List Char) := strsL ["infant", "baby", "0-2 years"]

def toddlerTerms : List (List Char) := strsL ["toddler", "2-5 years"]

def schoolTerms : List (List Char) := strsL ["school", "6-12 years"]

def adolescentTerms : List (List Char) :=
  strsL ["adolescent", "teenager", "13-18 years"]

/-- Embedding of categorize_content, create_new_schema_dataset.py lines 51
    to 103: category from the chapter label, age group from the content by
    the fixed if elif chain, with defaults General Pediatrics and
    Pediatric. -/
def categorize_content (chapter content : List Char) : List Char × List Char :=
  let chapter_lower := toLowerL chapter
  let medical_category := lookupCategory categoryMapping chapter_lower
  let content_lower := toLowerL content
  let age_group :=
    if anyTermIn neonatalTerms content_lower then "Neonatal".toList
    else if anyTermIn infantTerms content_lower then "Infant".toList
    else if anyTermIn toddlerTerms content_lower then "Toddler".toList
    else if anyTermIn schoolTerms content_lower then "School Age".toList
    else if anyTermIn adolescentTerms content_lower then "Adolescent".toList
    else "Pediatric".toList
  (medical_category, age_group)

/-- The age rules in their priority order, used to state that the chain
    returns the first matching rule. -/
def ageRules : List (List (List Char) × List Char) :=
  [(neonatalTerms, "Neonatal".toList), (infantTerms, "Infant".toList),
   (toddlerTerms, "Toddler".toList), (schoolTerms, "School Age".toList),
   (adolescentTerms, "Adolescent".toList)]

/-- The per record composition of the classifier performed at
    create_new_schema_dataset.py lines 156 to 158: keyword extraction
    together with category and age group resolution. -/
def classify (ord : List (List Char) → List (List Char))
    (content chapter : List Char) : List Char × List Char × List (List Char) :=
  ((categorize_content chapter content).1,
   (categorize_content chapter content).2,
   CreateNewSchema.extract_keywords ord content)

/- ------------------------------------------------------------------ -/
/- The keyword patterns of data_processor.py extract_keywords.         -/
/- ------------------------------------------------------------------ -/

/-- Pattern data_processor.py line 71. -/
def dpPat1 : RE := wordRE ["syndrome", "disease", "disorder", "condition"]

/-- Pattern line 72. -/
def dpPat2 : RE := wordRE ["treatment", "therapy", "medication", "drug"]

/-- Pattern line 73. -/
def dpPat3 : RE := wordRE ["diagnosis", "symptom", "sign", "manifestation"]

/-- Pattern line 74. -/
def dpPat4 : RE := wordRE ["mg/kg", "mcg/kg", "units/kg"]

/-- Pattern line 75: a capitalized word sequence followed by one of three
    suffix alternatives.  Under IGNORECASE on lowercased text the two letter
    classes both collapse to any ASCII letter; the final group parses as the
    alternation of whitespace plus syndrome, bare disease, bare disorder,
    because alternation binds loosest inside the group. -/
def dpPat5 : RE :=
  RE.seq RE.wb
    (RE.seq (RE.cls Char.isAlpha)
      (RE.seq (plusRE (RE.cls Char.isAlpha))
        (RE.seq (RE.star (RE.seq (plusRE (RE.cls pyIsSpace))
            (RE.seq (RE.cls Char.isAlpha) (plusRE (RE.cls Char.isAlpha)))))
          (RE.seq (altRE [RE.seq (plusRE (RE.cls pyIsSpace)) (litRE "syndrome".toList),
              litRE "disease".toList, litRE "disorder".toList]) RE.wb))))

/-- Pattern line 76: age group terms. -/
def dpPat6 : RE :=
  wordRE ["pediatric", "infant", "child", "adolescent", "neonatal"]

/-- The medical_patterns list of data_processor.py lines 70 to 77, all six
    patterns in source order. -/
def dpMedicalPatterns : List RE :=
  [dpPat1, dpPat2, dpPat3, dpPat4, dpPat5, dpPat6]

/-- Zero or more dash plus lowercase letter groups, greedily; the tail of
    the capturing group of the drug pattern at data_processor.py line 88. -/
def parseDashes : Nat → List Char → (List Char × List Char)
  | 0, s => ([], s)
  | fuel + 1, s =>
    match s with
    | '-' :: rest =>
      let ls := rest.takeWhile (fun d => 'a' ≤ d && d ≤ 'z')
      if ls = [] then ([], s)
      else
        let r := parseDashes fuel (rest.drop ls.length)
        ('-' :: (ls ++ r.1), r.2)
    | _ => ([], s)

/-- Parser for the capturing group of the drug pattern: an uppercase letter,
    one or more lowercase letters, then the dash groups, all greedy.  Giving
    characters back can never extend a match here, because the continuation
    must start with whitespace, which no group character can supply, so the
    committed greedy parse equals the backtracking semantics. -/
def parseName (s : List Char) : Option (List Char × List Char) :=
  match s with
  | c :: rest =>
    if 'A' ≤ c && c ≤ 'Z' then
      let ls := rest.takeWhile (fun d => 'a' ≤ d && d ≤ 'z')
      if ls = [] then none
      else
        let r := parseDashes rest.length (rest.drop ls.length)
        some (c :: (ls ++ r.1), r.2)
    else none
  | [] => none

/-- Parser for the non capturing tail of the drug pattern: one or more
    whitespace characters, digits, an optional dash digits group, optional
    whitespace, then one of mg, mcg, units tried in source order, with no
    trailing boundary.  Returns the input remaining after the match.  When
    the optional group sees a dash without digits the whole tail fails, as
    it does under backtracking, because the unit alternatives cannot start
    at the dash. -/
def parseAmount (s : List Char) : Option (List Char) :=
  let sp := s.takeWhile pyIsSpace
  if sp = [] then none
  else
    let s1 := s.drop sp.length
    let ds := s1.takeWhile Char.isDigit
    if ds = [] then none
    else
      let s2 := s1.drop ds.length
      let s3 :=
        match s2 with
        | '-' :: r2 =>
          let ds2 := r2.takeWhile Char.isDigit
          if ds2 = [] then none else some (r2.drop ds2.length)
        | _ => some s2
      match s3 with
      | none => none
      | some s4 =>
        let s5 := s4.drop ((s4.takeWhile pyIsSpace).length)
        if s5.take 2 = "mg".toList then some (s5.drop 2)
        else if s5.take 3 = "mcg".toList then some (s5.drop 3)
        else if s5.take 5 = "units".toList then some (s5.drop 5)
        else none

/-- Scanner for re.findall on the drug pattern of data_processor.py lines 88
    and 89: at each position whose predecessor is not a word character,
    match the name group then the amount tail and record the captured name,
    resuming after the full match; otherwise advance one character. -/
def dpDrugAux : Nat → Option Char → List Char → List (List Char)
  | 0, _, _ => []
  | fuel + 1, prev, s =>
    match s with
    | [] => []
    | c :: rest =>
      if wordOpt prev = false then
        match parseName s with
        | some nr =>
          match parseAmount nr.2 with
          | some s2 =>
            nr.1 :: dpDrugAux fuel ((s.take (s.length - s2.length)).getLast?) s2
          | none => dpDrugAux fuel (some c) rest
        | none => dpDrugAux fuel (some c) rest
      else dpDrugAux fuel (some c) rest

/-- re.findall for the drug pattern over the original, not lowercased,
    text; findall returns the capturing group. -/
def dpDrugFindall (s : List Char) : List (List Char) :=
  dpDrugAux (s.length + 1) none s

/-- The keyword insertion sequence built by extract_keywords of
    data_processor.py lines 79 to 90: the six pattern match lists over the
    lowercased text in pattern order, then the captured drug names over the
    original text, lowercased. -/
def dpCandidates (text : List Char) : List (List Char) :=
  (dpMedicalPatterns.map (fun p => pyFindall p (toLowerL text))).flatten ++
    (dpDrugFindall text).map toLowerL

namespace DataProcessor

/-- Embedding of extract_keywords, data_processor.py lines 67 to 92: the
    six medical patterns run over the lowercased text in order, then the
    drug pattern over the original text with its captured names lowercased;
    the set built by the successive update calls is modelled by the order
    parameter applied to the insertion sequence, and the listed result is
    truncated to twenty entries. -/
def extract_keywords (ord : List (List Char) → List (List Char))
    (text : List Char) : List (List Char) :=
  (ord (dpCandidates text)).take 20

end DataProcessor

/-- Case insensitive duplicate freedom of a keyword list: no two entries
    agree after lowercasing. -/
def ciNodup (l : List (List Char)) : Prop :=
  l.Pairwise (fun a b => toLowerL a ≠ toLowerL b)

/- ------------------------------------------------------------------ -/
/- Lemmas about the sentence splitter.                                 -/
/- ------------------------------------------------------------------ -/

theorem sentenceEnd_not_space {c : Char} (h : sentenceEnd c = true) :
    pyIsSpace c = false := by
  simp only [sentenceEnd, Bool.or_eq_true, decide_eq_true_eq] at h
  rcases h with (rfl | rfl) | rfl <;> decide

theorem cond_acc_ne_nil {acc : List Char} {c : Char}
    (h : (sentenceEnd (acc.headD ' ') && pyIsSpace c) = true) : acc ≠ [] := by
  rintro rfl
  rw [show ([] : List Char).headD ' ' = ' ' from rfl] at h
  rw [show sentenceEnd ' ' = false by decide] at h
  simp at h

theorem splitAux_ne_nil : ∀ (acc cs : List Char), splitAux acc cs ≠ [] := by
  intro acc cs
  induction acc, cs using splitAux.induct with
  | case1 acc => simp [splitAux]
  | case2 acc c rest h ih => simp only [splitAux]; rw [if_pos h]; simp
  | case3 acc c rest h ih => simp only [splitAux]; rw [if_neg h]; exact ih

theorem splitAux_dropLast_ne_nil :
    ∀ (acc cs : List Char), ∀ s ∈ (splitAux acc cs).dropLast, s ≠ [] := by
  intro acc cs
  induction acc, cs using splitAux.induct with
  | case1 acc => simp [splitAux]
  | case2 acc c rest h ih =>
    intro s hs
    simp only [splitAux] at hs; rw [if_pos h] at hs
    rw [List.dropLast_cons_of_ne_nil (splitAux_ne_nil _ _)] at hs
    rcases List.mem_cons.mp hs with rfl | hs2
    · simpa [List.reverse_eq_nil_iff] using cond_acc_ne_nil h
    · exact ih s hs2
  | case3 acc c rest h ih =>
    intro s hs
    simp only [splitAux] at hs; rw [if_neg h] at hs
    exact ih s hs

theorem splitAux_mem_nonws :
    ∀ (acc cs : List Char), ∀ s ∈ splitAux acc cs,
      s = [] ∨ (∃ c ∈ s, pyIsSpace c = false) ∨ s = acc.reverse ++ cs := by
  intro acc cs
  induction acc, cs using splitAux.induct with
  | case1 acc =>
    intro s hs
    simp only [splitAux, List.mem_singleton] at hs
    subst hs; right; right; simp
  | case2 acc c rest h ih =>
    intro s hs
    simp only [splitAux] at hs; rw [if_pos h] at hs
    rcases List.mem_cons.mp hs with rfl | hs2
    · right; left
      have hacc := cond_acc_ne_nil h
      have hhead : sentenceEnd (acc.headD ' ') = true := ((Bool.and_eq_true _ _).mp h).1
      obtain ⟨a, acc2, rfl⟩ := List.exists_cons_of_ne_nil hacc
      exact ⟨a, by simp, sentenceEnd_not_space (by simpa using hhead)⟩
    · rcases ih s hs2 with h1 | h2 | h3
      · exact Or.inl h1
      · exact Or.inr (Or.inl h2)
      · rw [List.reverse_nil, List.nil_append] at h3
        by_cases hnil : rest.dropWhile pyIsSpace = []
        · left; rw [h3, hnil]
        · right; left
          refine ⟨(rest.dropWhile pyIsSpace).head hnil, ?_, ?_⟩
          · rw [h3]; exact List.head_mem hnil
          · exact List.head_dropWhile_not pyIsSpace rest hnil
  | case3 acc c rest h ih =>
    intro s hs
    simp only [splitAux] at hs; rw [if_neg h] at hs
    rcases ih s hs with h1 | h2 | h3
    · exact Or.inl h1
    · exact Or.inr (Or.inl h2)
    · right; right; rw [h3]; simp [List.reverse_cons, List.append_assoc]

/- ------------------------------------------------------------------ -/
/- Lemmas about whitespace erasure.                                    -/
/- ------------------------------------------------------------------ -/

theorem eraseSpaces_nil : eraseSpaces [] = [] := rfl

theorem eraseSpaces_append (l r : List Char) :
    eraseSpaces (l ++ r) = eraseSpaces l ++ eraseSpaces r :=
  List.filter_append l r

theorem eraseSpaces_space_cons {c : Char} (h : pyIsSpace c = true) (l : List Char) :
    eraseSpaces (c :: l) = eraseSpaces l := by
  simp [eraseSpaces, List.filter_cons, h]

theorem eraseSpaces_dropWhile (l : List Char) :
    eraseSpaces (l.dropWhile pyIsSpace) = eraseSpaces l := by
  induction l with
  | nil => rfl
  | cons c l ih =>
    rw [List.dropWhile_cons]
    by_cases h : pyIsSpace c = true
    · rw [if_pos h, ih, eraseSpaces_space_cons h]
    · rw [if_neg h]

theorem eraseSpaces_reverse (l : List Char) :
    eraseSpaces l.reverse = (eraseSpaces l).reverse :=
  List.filter_reverse _ _

theorem eraseSpaces_pyStrip (l : List Char) :
    eraseSpaces (pyStrip l) = eraseSpaces l := by
  unfold pyStrip
  rw [eraseSpaces_reverse, eraseSpaces_dropWhile, eraseSpaces_reverse,
    eraseSpaces_dropWhile, List.reverse_reverse]

theorem splitAux_flatten_erase :
    ∀ (acc cs : List Char),
      eraseSpaces (splitAux acc cs).flatten =
        eraseSpaces acc.reverse ++ eraseSpaces cs := by
  intro acc cs
  induction acc, cs using splitAux.induct with
  | case1 acc => simp [splitAux, eraseSpaces]
  | case2 acc c rest h ih =>
    simp only [splitAux]; rw [if_pos h]
    rw [List.flatten_cons, eraseSpaces_append, ih, List.reverse_nil,
      eraseSpaces_nil, List.nil_append, eraseSpaces_dropWhile,
      eraseSpaces_space_cons ((Bool.and_eq_true _ _).mp h).2]
  | case3 acc c rest h ih =>
    simp only [splitAux]; rw [if_neg h, ih]
    rw [List.reverse_cons, eraseSpaces_append, List.append_assoc]
    congr 1
    rw [show (c :: rest) = [c] ++ rest from rfl, eraseSpaces_append]

/- ------------------------------------------------------------------ -/
/- Lemmas about chunk accumulation.                                    -/
/- ------------------------------------------------------------------ -/

theorem pyAppendSent_eq_nil_iff (acc s : List Char) :
    pyAppendSent acc s = [] ↔ acc = [] ∧ s = [] := by
  unfold pyAppendSent
  split
  · simp [*]
  · simp [*]

theorem foldl_pyAppendSent_eq_nil (g : List (List Char)) :
    ∀ acc, (g.foldl pyAppendSent acc = []) ↔ (acc = [] ∧ ∀ x ∈ g, x = []) := by
  induction g with
  | nil => intro acc; simp
  | cons x g ih =>
    intro acc
    rw [List.foldl_cons, ih, pyAppendSent_eq_nil_iff]
    simp only [List.mem_cons, forall_eq_or_imp]
    tauto

theorem pyJoin_eq_nil_iff (g : List (List Char)) :
    pyJoin g = [] ↔ ∀ x ∈ g, x = [] := by
  rw [pyJoin, foldl_pyAppendSent_eq_nil]
  simp

theorem pyJoin_singleton (s : List Char) : pyJoin [s] = s := by
  simp [pyJoin, pyAppendSent]

theorem pyJoin_append_singleton (g : List (List Char)) (s : List Char) :
    pyJoin (g ++ [s]) = pyAppendSent (pyJoin g) s := by
  simp [pyJoin, List.foldl_append]

theorem eraseSpaces_pyAppendSent (acc s : List Char) :
    eraseSpaces (pyAppendSent acc s) = eraseSpaces acc ++ eraseSpaces s := by
  unfold pyAppendSent
  split
  · simp [*, eraseSpaces_nil]
  · rw [eraseSpaces_append, eraseSpaces_space_cons (by decide)]

theorem foldl_pyAppendSent_erase (g : List (List Char)) :
    ∀ acc, eraseSpaces (g.foldl pyAppendSent acc) =
      eraseSpaces acc ++ eraseSpaces g.flatten := by
  induction g with
  | nil => intro acc; simp [eraseSpaces_nil]
  | cons x g ih =>
    intro acc
    rw [List.foldl_cons, ih, eraseSpaces_pyAppendSent, List.flatten_cons,
      eraseSpaces_append, List.append_assoc]

theorem eraseSpaces_pyJoin (g : List (List Char)) :
    eraseSpaces (pyJoin g) = eraseSpaces g.flatten := by
  have h := foldl_pyAppendSent_erase g []
  simpa [pyJoin, eraseSpaces_nil] using h

theorem chunkAux_eq_groups (tok : List Char → Nat) (maxTokens : Nat) :
    ∀ (ss g : List (List Char)) (t : Nat),
      chunkAux tok maxTokens ss (pyJoin g) t =
        (chunkGroups tok maxTokens ss g t).map fun h => pyStrip (pyJoin h) := by
  intro ss
  induction ss with
  | nil =>
    intro g t
    simp only [chunkAux, chunkGroups]
    by_cases h : pyJoin g = []
    · rw [if_pos h, if_pos h]; rfl
    · rw [if_neg h, if_neg h]; rfl
  | cons s ss ih =>
    intro g t
    simp only [chunkAux, chunkGroups]
    by_cases h : t + tok s > maxTokens ∧ pyJoin g ≠ []
    · rw [if_pos h, if_pos h, List.map_cons]
      have h2 := ih [s] (tok s)
      rw [pyJoin_singleton] at h2
      rw [h2]
    · rw [if_neg h, if_neg h, ← pyJoin_append_singleton]
      exact ih (g ++ [s]) (t + tok s)

theorem chunk_text_eq_groups (tok : List Char → Nat) (maxTokens : Nat)
    (text : List Char) :
    chunk_text tok maxTokens text =
      (chunkGroups tok maxTokens (splitSentences text) [] 0).map
        fun g => pyStrip (pyJoin g) := by
  have h := chunkAux_eq_groups tok maxTokens (splitSentences text) [] 0
  rw [show pyJoin [] = [] from rfl] at h
  exact h

/- ------------------------------------------------------------------ -/
/- Invariants of the chunking loop.                                    -/
/- ------------------------------------------------------------------ -/

theorem dropLast_cons_subset {α : Type} (s : α) (ss : List α) :
    ∀ x ∈ ss.dropLast, x ∈ (s :: ss).dropLast := by
  intro x hx
  cases ss with
  | nil => cases hx
  | cons y ys =>
    rw [List.dropLast_cons_of_ne_nil (by simp)]
    exact List.mem_cons_of_mem s hx

theorem head_mem_dropLast {α : Type} (s : α) (ss : List α) (h : ss ≠ []) :
    s ∈ (s :: ss).dropLast := by
  cases ss with
  | nil => exact absurd rfl h
  | cons y ys =>
    rw [List.dropLast_cons_of_ne_nil (by simp)]
    exact List.mem_cons_self _ _

theorem chunkGroups_bound (tok : List Char → Nat) (maxTokens : Nat) :
    ∀ (ss cur : List (List Char)) (t : Nat),
      (∀ x ∈ ss.dropLast, x ≠ []) →
      t = (cur.map tok).sum →
      ((cur.map tok).sum ≤ maxTokens ∨ (∃ s, cur = [s]) ∨ pyJoin cur = []) →
      (ss ≠ [] → cur = [] ∨ ∃ x ∈ cur, x ≠ []) →
      ∀ g ∈ (chunkGroups tok maxTokens ss cur t).dropLast,
        (g.map tok).sum ≤ maxTokens ∨ ∃ s, g = [s] ∧ maxTokens < tok s := by
  intro ss
  induction ss with
  | nil =>
    intro cur t h1 h2 h3 h4 g hg
    simp only [chunkGroups] at hg
    by_cases h : pyJoin cur = []
    · rw [if_pos h] at hg; cases hg
    · rw [if_neg h, List.dropLast_single] at hg; cases hg
  | cons s ss ih =>
    intro cur t h1 h2 h3 h4 g hg
    have h1' : ∀ x ∈ ss.dropLast, x ≠ [] :=
      fun x hx => h1 x (dropLast_cons_subset s ss x hx)
    have hslast : ss ≠ [] → s ≠ [] :=
      fun hne => h1 s (head_mem_dropLast s ss hne)
    simp only [chunkGroups] at hg
    by_cases h : t + tok s > maxTokens ∧ pyJoin cur ≠ []
    · rw [if_pos h] at hg
      cases hrec : chunkGroups tok maxTokens ss [s] (tok s) with
      | nil => rw [hrec, List.dropLast_single] at hg; cases hg
      | cons r rs =>
        rw [hrec, List.dropLast_cons_of_ne_nil (by simp)] at hg
        rcases List.mem_cons.mp hg with rfl | hg2
        · rcases h3 with hle | ⟨x, rfl⟩ | hjoin
          · exact Or.inl hle
          · by_cases hx : tok x ≤ maxTokens
            · left; simpa using hx
            · right; exact ⟨x, rfl, Nat.lt_of_not_le hx⟩
          · exact absurd hjoin h.2
        · refine ih [s] (tok s) h1' (by simp) (Or.inr (Or.inl ⟨s, rfl⟩))
            (fun hne => Or.inr ⟨s, by simp, hslast hne⟩) g ?_
          rw [hrec]
          exact hg2
    · rw [if_neg h] at hg
      have ht : t + tok s = ((cur ++ [s]).map tok).sum := by
        rw [h2]; simp
      refine ih (cur ++ [s]) (t + tok s) h1' ht ?_
        (fun hne => Or.inr ⟨s, List.mem_append_right _ (by simp), hslast hne⟩) g hg
      by_cases hle : t + tok s ≤ maxTokens
      · left; rw [← ht]; exact hle
      · have hj : pyJoin cur = [] := by
          by_contra hj
          exact h ⟨Nat.lt_of_not_le hle, hj⟩
        rcases h4 (by simp) with rfl | ⟨x, hx, hxe⟩
        · right; left; exact ⟨s, rfl⟩
        · exact absurd ((pyJoin_eq_nil_iff cur).mp hj x hx) hxe

theorem chunkGroups_flatten (tok : List Char → Nat) (maxTokens : Nat) :
    ∀ (ss cur : List (List Char)) (t : Nat),
      (∀ x ∈ ss.dropLast, x ≠ []) →
      (cur = [] ∨ (∃ x ∈ cur, x ≠ []) ∨ (ss = [] ∧ cur = [[]])) →
      (chunkGroups tok maxTokens ss cur t).flatten = cur ++ ss ∨
      (chunkGroups tok maxTokens ss cur t).flatten ++ [[]] = cur ++ ss := by
  intro ss
  induction ss with
  | nil =>
    intro cur t h1 h2
    simp only [chunkGroups]
    by_cases h : pyJoin cur = []
    · rw [if_pos h]
      rcases h2 with rfl | ⟨x, hx, hxe⟩ | ⟨_, rfl⟩
      · left; simp
      · exact absurd ((pyJoin_eq_nil_iff cur).mp h x hx) hxe
      · right; simp
    · rw [if_neg h]; left; simp
  | cons s ss ih =>
    intro cur t h1 h2
    have h1' : ∀ x ∈ ss.dropLast, x ≠ [] :=
      fun x hx => h1 x (dropLast_cons_subset s ss x hx)
    have hslast : ss ≠ [] → s ≠ [] :=
      fun hne => h1 s (head_mem_dropLast s ss hne)
    simp only [chunkGroups]
    by_cases h : t + tok s > maxTokens ∧ pyJoin cur ≠ []
    · rw [if_pos h, List.flatten_cons]
      have hH : [s] = ([] : List (List Char)) ∨ (∃ x ∈ [s], x ≠ []) ∨
          (ss = [] ∧ [s] = [[]]) := by
        by_cases hse : s = []
        · have hss0 : ss = [] := by
            by_contra hne
            exact (hslast hne) hse
          exact Or.inr (Or.inr ⟨hss0, by rw [hse]⟩)
        · exact Or.inr (Or.inl ⟨s, by simp, hse⟩)
      rcases ih [s] (tok s) h1' hH with hL | hR
      · left; rw [hL]; rfl
      · right; rw [List.append_assoc, hR]; rfl
    · rw [if_neg h]
      have hH : (cur ++ [s]) = [] ∨ (∃ x ∈ cur ++ [s], x ≠ []) ∨
          (ss = [] ∧ cur ++ [s] = [[]]) := by
        by_cases hse : s = []
        · have hss0 : ss = [] := by
            by_contra hne
            exact (hslast hne) hse
          rcases h2 with rfl | ⟨x, hx, hxe⟩ | ⟨habs, _⟩
          · exact Or.inr (Or.inr ⟨hss0, by rw [hse]; rfl⟩)
          · exact Or.inr (Or.inl ⟨x, List.mem_append_left _ hx, hxe⟩)
          · exact absurd habs (by simp)
        · exact Or.inr (Or.inl ⟨s, List.mem_append_right _ (by simp), hse⟩)
      rcases ih (cur ++ [s]) (t + tok s) h1' hH with hL | hR
      · left; rw [hL, List.append_assoc]; rfl
      · right; rw [hR, List.append_assoc]; rfl

/- ------------------------------------------------------------------ -/
/- Chunks are nonempty when the text has a non whitespace character.   -/
/- ------------------------------------------------------------------ -/

theorem mem_dropWhile_of_neg {c : Char} :
    ∀ (l : List Char), c ∈ l → pyIsSpace c = false →
      c ∈ l.dropWhile pyIsSpace := by
  intro l
  induction l with
  | nil => intro h; cases h
  | cons x xs ih =>
    intro hmem hc
    rw [List.dropWhile_cons]
    by_cases hx : pyIsSpace x = true
    · rw [if_pos hx]
      rcases List.mem_cons.mp hmem with rfl | h2
      · rw [hc] at hx; cases hx
      · exact ih h2 hc
    · rw [if_neg hx]; exact hmem

theorem pyStrip_ne_nil {l : List Char} (h : ∃ c ∈ l, pyIsSpace c = false) :
    pyStrip l ≠ [] := by
  obtain ⟨c, hmem, hc⟩ := h
  have h1 : c ∈ l.dropWhile pyIsSpace := mem_dropWhile_of_neg l hmem hc
  have h2 : c ∈ (l.dropWhile pyIsSpace).reverse := List.mem_reverse.mpr h1
  have h3 : c ∈ ((l.dropWhile pyIsSpace).reverse).dropWhile pyIsSpace :=
    mem_dropWhile_of_neg _ h2 hc
  have h4 : c ∈ pyStrip l := by
    unfold pyStrip
    exact List.mem_reverse.mpr h3
  exact List.ne_nil_of_mem h4

theorem mem_pyAppendSent_left {c : Char} {cur s : List Char} (h : c ∈ cur) :
    c ∈ pyAppendSent cur s := by
  by_cases he : cur = []
  · rw [he] at h; cases h
  · rw [pyAppendSent, if_neg he]; exact List.mem_append_left _ h

theorem chunkAux_ne_nil_mem (tok : List Char → Nat) (maxTokens : Nat) :
    ∀ (ss : List (List Char)) (cur : List Char) (t : Nat),
      (∀ s ∈ ss, s = [] ∨ ∃ c ∈ s, pyIsSpace c = false) →
      (cur = [] ∨ ∃ c ∈ cur, pyIsSpace c = false) →
      ∀ ch ∈ chunkAux tok maxTokens ss cur t, ch ≠ [] := by
  intro ss
  induction ss with
  | nil =>
    intro cur t hss hcur ch hch
    simp only [chunkAux] at hch
    by_cases h : cur = []
    · rw [if_pos h] at hch; cases hch
    · rw [if_neg h] at hch
      rcases List.mem_singleton.mp hch with rfl
      rcases hcur with rfl | hne
      · exact absurd rfl h
      · exact pyStrip_ne_nil hne
  | cons s ss ih =>
    intro cur t hss hcur ch hch
    have hs := hss s (List.mem_cons_self s ss)
    have hss2 : ∀ x ∈ ss, x = [] ∨ ∃ c ∈ x, pyIsSpace c = false :=
      fun x hx => hss x (List.mem_cons_of_mem s hx)
    simp only [chunkAux] at hch
    by_cases h : t + tok s > maxTokens ∧ cur ≠ []
    · rw [if_pos h] at hch
      rcases List.mem_cons.mp hch with rfl | h2
      · rcases hcur with rfl | hne
        · exact absurd rfl h.2
        · exact pyStrip_ne_nil hne
      · exact ih s (tok s) hss2 hs ch h2
    · rw [if_neg h] at hch
      refine ih (pyAppendSent cur s) (t + tok s) hss2 ?_ ch hch
      rcases hcur with rfl | ⟨c, hcmem, hc⟩
      · rw [show pyAppendSent [] s = s from by simp [pyAppendSent]]
        exact hs
      · exact Or.inr ⟨c, mem_pyAppendSent_left hcmem, hc⟩

theorem eraseSpaces_map_strip_join (G : List (List (List Char))) :
    eraseSpaces ((G.map fun g => pyStrip (pyJoin g)).flatten) =
      eraseSpaces G.flatten.flatten := by
  induction G with
  | nil => rfl
  | cons g G ih =>
    rw [List.map_cons, List.flatten_cons, eraseSpaces_append, eraseSpaces_pyStrip,
      eraseSpaces_pyJoin, ih, List.flatten_cons, List.flatten_append,
      eraseSpaces_append]

theorem splitSentences_flatten_erase (text : List Char) :
    eraseSpaces (splitSentences text).flatten = eraseSpaces text := by
  have h := splitAux_flatten_erase [] text
  simpa [splitSentences, eraseSpaces_nil] using h

/-- C1: In chunk_text, sentences are accumulated greedily: with a non empty
    current chunk the next sentence is appended exactly when the running
    token count plus its own token count stays within maxTokens, and
    otherwise the current chunk is emitted and a new chunk starts with that
    sentence; consequently every chunk except possibly the last has
    accumulated token count at most maxTokens unless it consists of a single
    sentence whose own token count exceeds maxTokens. -/
theorem chunk_text_greedy_budget (tok : List Char → Nat) (maxTokens : Nat)
    (text : List Char) :
    (chunk_text tok maxTokens text =
      (chunkGroups tok maxTokens (splitSentences text) [] 0).map
        fun g => pyStrip (pyJoin g)) ∧
    (∀ g ∈ (chunkGroups tok maxTokens (splitSentences text) [] 0).dropLast,
      (g.map tok).sum ≤ maxTokens ∨ ∃ s, g = [s] ∧ maxTokens < tok s) ∧
    (∀ (s : List Char) (ss : List (List Char)) (cur : List Char) (t : Nat),
      cur ≠ [] →
      (t + tok s ≤ maxTokens →
        chunkAux tok maxTokens (s :: ss) cur t =
          chunkAux tok maxTokens ss (cur ++ ' ' :: s) (t + tok s)) ∧
      (maxTokens < t + tok s →
        chunkAux tok maxTokens (s :: ss) cur t =
          pyStrip cur :: chunkAux tok maxTokens ss s (tok s))) := by
  refine ⟨chunk_text_eq_groups tok maxTokens text, ?_, ?_⟩
  · exact chunkGroups_bound tok maxTokens (splitSentences text) [] 0
      (splitAux_dropLast_ne_nil [] text) rfl (Or.inl (Nat.zero_le _))
      (fun _ => Or.inl rfl)
  · intro s ss cur t hcur
    constructor
    · intro hle
      simp only [chunkAux]
      have hno : ¬(t + tok s > maxTokens ∧ cur ≠ []) :=
        fun hcontra => absurd hcontra.1 (Nat.not_lt.mpr hle)
      rw [if_neg hno, pyAppendSent, if_neg hcur]
    · intro hgt
      simp only [chunkAux]
      rw [if_pos ⟨hgt, hcur⟩]

theorem chunk_text_greedy_budget_witness :
    chunkAux List.length 3 ["cd".toList] "ab".toList 2 =
      pyStrip "ab".toList :: chunkAux List.length 3 [] "cd".toList 2 := by
  have h := (chunk_text_greedy_budget List.length 3 []).2.2 "cd".toList []
    "ab".toList 2 (by decide)
  exact h.2 (by decide)

/-- C2: Every chunk of chunk_text is the stripped space joined string of
    one sentence group, and the sentence sequence obtained by splitting the
    text at terminal punctuation followed by whitespace is exactly the
    concatenation of those groups in output order (up to one trailing empty
    sentence, which is invisible in the chunk strings), the final non empty
    accumulated chunk always being emitted; so no sentence is omitted,
    duplicated or reordered, and concatenating all chunks reproduces the
    input text exactly up to whitespace. -/
theorem chunk_text_roundtrip (tok : List Char → Nat) (maxTokens : Nat)
    (text : List Char) :
    (chunk_text tok maxTokens text =
      (chunkGroups tok maxTokens (splitSentences text) [] 0).map
        fun g => pyStrip (pyJoin g)) ∧
    (splitSentences text =
        (chunkGroups tok maxTokens (splitSentences text) [] 0).flatten ∨
      splitSentences text =
        (chunkGroups tok maxTokens (splitSentences text) [] 0).flatten ++ [[]]) ∧
    eraseSpaces (chunk_text tok maxTokens text).flatten = eraseSpaces text := by
  have hmain := chunkGroups_flatten tok maxTokens (splitSentences text) [] 0
    (splitAux_dropLast_ne_nil [] text) (Or.inl rfl)
  refine ⟨chunk_text_eq_groups tok maxTokens text, ?_, ?_⟩
  · rcases hmain with hL | hR
    · left; exact (hL.trans (List.nil_append _)).symm
    · right; exact (hR.trans (List.nil_append _)).symm
  · rw [chunk_text_eq_groups, eraseSpaces_map_strip_join]
    rcases hmain with hL | hR
    · have h2 : (chunkGroups tok maxTokens (splitSentences text) [] 0).flatten =
          splitSentences text := hL.trans (List.nil_append _)
      rw [h2, splitSentences_flatten_erase]
    · have h2 : (chunkGroups tok maxTokens (splitSentences text) [] 0).flatten
          ++ [[]] = splitSentences text := hR.trans (List.nil_append _)
      have h3 : (chunkGroups tok maxTokens (splitSentences text) [] 0).flatten.flatten
          = (splitSentences text).flatten := by
        conv_rhs => rw [← h2]
        rw [List.flatten_append]
        simp
      rw [h3, splitSentences_flatten_erase]

/-- C9 counterexample: on the whitespace only input consisting of one space,
    chunk_text emits exactly one chunk and that chunk is the empty string,
    refuting the claim that every emitted chunk is non empty. -/
theorem chunk_text_empty_chunk_counterexample :
    chunk_text List.length 800 " ".toList = [[]] := by
  simp +decide [chunk_text, splitSentences, splitAux, chunkAux, pyAppendSent,
    pyStrip]

/-- C9 (amended): every chunk returned by chunk_text is non empty provided
    the input text contains at least one non whitespace character; for non
    empty whitespace only input the single emitted chunk is the empty
    string. -/
theorem chunk_text_chunks_ne_nil (tok : List Char → Nat) (maxTokens : Nat)
    (text : List Char) (h : ∃ c ∈ text, pyIsSpace c = false) :
    ∀ ch ∈ chunk_text tok maxTokens text, ch ≠ [] := by
  have hsent : ∀ s ∈ splitSentences text, s = [] ∨ ∃ c ∈ s, pyIsSpace c = false := by
    intro s hs
    rcases splitAux_mem_nonws [] text s hs with h1 | h2 | h3
    · exact Or.inl h1
    · exact Or.inr h2
    · rw [List.reverse_nil, List.nil_append] at h3
      rw [h3]
      exact Or.inr h
  exact chunkAux_ne_nil_mem tok maxTokens (splitSentences text) [] 0 hsent
    (Or.inl rfl)

theorem chunk_text_chunks_ne_nil_witness :
    ([] : List Char) ∉ chunk_text List.length 800 "a.".toList := by
  intro hmem
  exact chunk_text_chunks_ne_nil List.length 800 "a.".toList
    ⟨'a', by decide, by decide⟩ [] hmem rfl

/-- C10: chunk_text applied to the empty string returns the empty chunk
    list, for every tokenizer and every budget. -/
theorem chunk_text_empty_input (tok : List Char → Nat) (maxTokens : Nat) :
    chunk_text tok maxTokens [] = [] := by
  simp [chunk_text, splitSentences, splitAux, chunkAux, pyAppendSent]

/- ------------------------------------------------------------------ -/
/- Lemmas about the classifier.                                        -/
/- ------------------------------------------------------------------ -/

theorem char_ofNat_toNat {n : Nat} (h : n < 55296) : (Char.ofNat n).toNat = n := by
  unfold Char.ofNat
  rw [dif_pos (Or.inl h)]
  rfl

theorem pyLowerChar_idem (c : Char) : pyLowerChar (pyLowerChar c) = pyLowerChar c := by
  unfold pyLowerChar
  by_cases h : 65 ≤ c.toNat ∧ c.toNat ≤ 90
  · rw [if_pos h, if_neg]
    rw [char_ofNat_toNat (by omega)]
    omega
  · rw [if_neg h, if_neg h]

theorem setOrder_dedup : SetOrder (fun l => l.dedup) :=
  fun l => ⟨List.nodup_dedup l, fun _ => List.mem_dedup⟩

theorem setOrder_nil {ord : List (List Char) → List (List Char)}
    (hord : SetOrder ord) : ord [] = [] := by
  rcases hord [] with ⟨_, hmem⟩
  rw [List.eq_nil_iff_forall_not_mem]
  intro a ha
  exact absurd ((hmem a).mp ha) (List.not_mem_nil a)

theorem lookupCategory_eq_find (l : List (List Char × List Char)) (ch : List Char) :
    lookupCategory l ch =
      ((l.find? (fun p => containsSub p.1 ch)).map Prod.snd).getD
        "General Pediatrics".toList := by
  induction l with
  | nil => rfl
  | cons p rest ih =>
    obtain ⟨key, cat⟩ := p
    cases hc : containsSub key ch with
    | true => simp [lookupCategory, List.find?, hc]
    | false => simp [lookupCategory, List.find?, hc, ih]

theorem lookupCategory_mem (l : List (List Char × List Char)) (ch : List Char) :
    lookupCategory l ch ∈ l.map Prod.snd ∨
      lookupCategory l ch = "General Pediatrics".toList := by
  induction l with
  | nil => right; rfl
  | cons p rest ih =>
    obtain ⟨key, cat⟩ := p
    cases hc : containsSub key ch with
    | true => left; simp [lookupCategory, hc]
    | false =>
      rcases ih with hmem | hdef
      · left
        simp only [lookupCategory, hc, Bool.false_eq_true, if_false, List.map_cons]
        exact List.mem_cons_of_mem _ hmem
      · right
        simp only [lookupCategory, hc, Bool.false_eq_true, if_false]
        exact hdef

theorem categorize_age_eq_find (chapter content : List Char) :
    (categorize_content chapter content).2 =
      ((ageRules.find? (fun r => anyTermIn r.1 (toLowerL content))).map
        Prod.snd).getD "Pediatric".toList := by
  have hshow : (categorize_content chapter content).2 =
      (if anyTermIn neonatalTerms (toLowerL content) then "Neonatal".toList
       else if anyTermIn infantTerms (toLowerL content) then "Infant".toList
       else if anyTermIn toddlerTerms (toLowerL content) then "Toddler".toList
       else if anyTermIn schoolTerms (toLowerL content) then "School Age".toList
       else if anyTermIn adolescentTerms (toLowerL content) then "Adolescent".toList
       else "Pediatric".toList) := rfl
  rw [hshow]
  cases h1 : anyTermIn neonatalTerms (toLowerL content) with
  | true => simp [ageRules, List.find?, h1]
  | false =>
  cases h2 : anyTermIn infantTerms (toLowerL content) with
  | true => simp [ageRules, List.find?, h1, h2]
  | false =>
  cases h3 : anyTermIn toddlerTerms (toLowerL content) with
  | true => simp [ageRules, List.find?, h1, h2, h3]
  | false =>
  cases h4 : anyTermIn schoolTerms (toLowerL content) with
  | true => simp [ageRules, List.find?, h1, h2, h3, h4]
  | false =>
  cases h5 : anyTermIn adolescentTerms (toLowerL content) with
  | true => simp [ageRules, List.find?, h1, h2, h3, h4, h5]
  | false => simp [ageRules, List.find?, h1, h2, h3, h4, h5]

/-- C3: category resolution lowercases the chapter label, scans the fixed
    ordered mapping and returns the category of the first pair whose key
    occurs as a substring, with default General Pediatrics when no key
    occurs; list order decides ties, as the concrete instance shows: the
    label contains the key skin before the key cardiovascular, yet
    Cardiology is returned because cardiovascular is listed first. -/
theorem categorize_content_first_match (chapter content : List Char) :
    ((categorize_content chapter content).1 =
      ((categoryMapping.find? (fun p => containsSub p.1 (toLowerL chapter))).map
        Prod.snd).getD "General Pediatrics".toList) ∧
    ((∀ p ∈ categoryMapping, containsSub p.1 (toLowerL chapter) = false) →
      (categorize_content chapter content).1 = "General Pediatrics".toList) ∧
    (categorize_content "Skin Cardiovascular".toList []).1 = "Cardiology".toList := by
  refine ⟨lookupCategory_eq_find categoryMapping (toLowerL chapter), ?_, by decide⟩
  intro hnone
  have hfind : categoryMapping.find? (fun p => containsSub p.1 (toLowerL chapter))
      = none := by
    rw [List.find?_eq_none]
    intro x hx
    rw [hnone x hx]
    simp
  show lookupCategory categoryMapping (toLowerL chapter) = _
  rw [lookupCategory_eq_find, hfind]
  rfl

theorem categorize_content_first_match_witness :
    (categorize_content "xyz".toList []).1 = "General Pediatrics".toList :=
  (categorize_content_first_match "xyz".toList []).2.1 (by decide)

/-- C4: age group resolution lowercases the content and returns the label of
    the first rule, in the priority order Neonatal, Infant, Toddler, School
    Age, Adolescent, any of whose trigger terms occurs as a substring, with
    default Pediatric; a text containing both newborn and adolescent is
    labeled Neonatal. -/
theorem categorize_content_age_priority (chapter content : List Char) :
    ((categorize_content chapter content).2 =
      ((ageRules.find? (fun r => anyTermIn r.1 (toLowerL content))).map
        Prod.snd).getD "Pediatric".toList) ∧
    ((∀ r ∈ ageRules, anyTermIn r.1 (toLowerL content) = false) →
      (categorize_content chapter content).2 = "Pediatric".toList) ∧
    (categorize_content [] "the newborn and adolescent".toList).2 =
      "Neonatal".toList := by
  refine ⟨categorize_age_eq_find chapter content, ?_, by decide⟩
  intro hnone
  have hfind : ageRules.find? (fun r => anyTermIn r.1 (toLowerL content)) = none := by
    rw [List.find?_eq_none]
    intro x hx
    rw [hnone x hx]
    simp
  rw [categorize_age_eq_find, hfind]
  rfl

theorem categorize_content_age_priority_witness :
    (categorize_content [] "qq".toList).2 = "Pediatric".toList :=
  (categorize_content_age_priority [] "qq".toList).2.1 (by decide)

/-- C5: classify is deterministic: with the set iteration order of the
    running process fixed, two invocations on identical arguments produce
    the identical category, the identical age group and the identical
    keyword list, in the same order, including when the candidate list is
    truncated to the maximum count. -/
theorem classify_deterministic (ord : List (List Char) → List (List Char))
    (hord : SetOrder ord) (content chapter : List Char)
    (r₁ r₂ : List Char × List Char × List (List Char))
    (h₁ : r₁ = classify ord content chapter)
    (h₂ : r₂ = classify ord content chapter) : r₁ = r₂ :=
  h₁.trans h₂.symm

theorem classify_deterministic_witness :
    classify (fun l => l.dedup) "fever".toList [] =
      classify (fun l => l.dedup) "fever".toList [] :=
  classify_deterministic (fun l => l.dedup) setOrder_dedup "fever".toList []
    _ _ rfl rfl

/-- C7: classifying the empty string with the empty label returns exactly
    the defaults: General Pediatrics, Pediatric, and no keywords. -/
theorem classify_empty (ord : List (List Char) → List (List Char))
    (hord : SetOrder ord) :
    classify ord [] [] =
      ("General Pediatrics".toList, "Pediatric".toList, ([] : List (List Char))) := by
  have hkw : CreateNewSchema.extract_keywords ord [] = [] := by
    show (ord (nsCandidates [])).take 10 = []
    have hinner : nsCandidates [] = ([] : List (List Char)) := by decide
    rw [hinner, setOrder_nil hord]
    rfl
  show ((categorize_content [] []).1, (categorize_content [] []).2,
    CreateNewSchema.extract_keywords ord []) = _
  rw [hkw, show (categorize_content [] []).1 = "General Pediatrics".toList by decide,
    show (categorize_content [] []).2 = "Pediatric".toList by decide]

theorem classify_empty_witness :
    classify (fun l => l.dedup) [] [] =
      ("General Pediatrics".toList, "Pediatric".toList, ([] : List (List Char))) :=
  classify_empty (fun l => l.dedup) setOrder_dedup

/-- C8: the classifier is total on strings and returns non null labels: for
    every set order, content and chapter, the category is one of the mapped
    categories or the default General Pediatrics, the age group is one of
    the five rule labels or the default Pediatric, and both are non empty
    strings; the keyword component is a plain, possibly empty, list. -/
theorem classify_total (ord : List (List Char) → List (List Char))
    (hord : SetOrder ord) (content chapter : List Char) :
    ((classify ord content chapter).1 ∈ categoryMapping.map Prod.snd ∨
      (classify ord content chapter).1 = "General Pediatrics".toList) ∧
    (classify ord content chapter).1 ≠ [] ∧
    ((classify ord content chapter).2.1 ∈ ageRules.map Prod.snd ∨
      (classify ord content chapter).2.1 = "Pediatric".toList) ∧
    (classify ord content chapter).2.1 ≠ [] := by
  have hc : (classify ord content chapter).1 =
      lookupCategory categoryMapping (toLowerL chapter) := rfl
  have ha : (classify ord content chapter).2.1 =
      (categorize_content chapter content).2 := rfl
  have hcat := lookupCategory_mem categoryMapping (toLowerL chapter)
  have hage : (categorize_content chapter content).2 ∈ ageRules.map Prod.snd ∨
      (categorize_content chapter content).2 = "Pediatric".toList := by
    rw [categorize_age_eq_find]
    cases hf : ageRules.find? (fun r => anyTermIn r.1 (toLowerL content)) with
    | none => right; rfl
    | some r =>
      left
      simp only [Option.map_some', Option.getD_some]
      exact List.mem_map_of_mem Prod.snd (List.mem_of_find?_eq_some hf)
  refine ⟨?_, ?_, ?_, ?_⟩
  · rw [hc]; exact hcat
  · rw [hc]
    rcases hcat with hmem | hdef
    · have hall : ∀ x ∈ categoryMapping.map Prod.snd, x ≠ ([] : List Char) := by
        decide
      exact hall _ hmem
    · rw [hdef]; decide
  · rw [ha]; exact hage
  · rw [ha]
    rcases hage with hmem | hdef
    · have hall : ∀ x ∈ ageRules.map Prod.snd, x ≠ ([] : List Char) := by decide
      exact hall _ hmem
    · rw [hdef]; decide

theorem classify_total_witness :
    ((classify (fun l => l.dedup) "x".toList "y".toList).1 ∈
        categoryMapping.map Prod.snd ∨
      (classify (fun l => l.dedup) "x".toList "y".toList).1 =
        "General Pediatrics".toList) ∧
    (classify (fun l => l.dedup) "x".toList "y".toList).1 ≠ [] ∧
    ((classify (fun l => l.dedup) "x".toList "y".toList).2.1 ∈
        ageRules.map Prod.snd ∨
      (classify (fun l => l.dedup) "x".toList "y".toList).2.1 =
        "Pediatric".toList) ∧
    (classify (fun l => l.dedup) "x".toList "y".toList).2.1 ≠ [] :=
  classify_total (fun l => l.dedup) setOrder_dedup "x".toList "y".toList

/- ------------------------------------------------------------------ -/
/- Keyword lists: characters of matches come from the scanned string,  -/
/- so every candidate keyword is already lowercase.                    -/
/- ------------------------------------------------------------------ -/

theorem starMatch_drop
    (m : Option Char → List Char → List (Option Char × List Char))
    (hm : ∀ p s x, x ∈ m p s → ∃ k, x.2 = List.drop k s) :
    ∀ (n : Nat) (p : Option Char) (s : List Char) (x : Option Char × List Char),
      x ∈ starMatch m n p s → ∃ k, x.2 = List.drop k s := by
  intro n
  induction n with
  | zero =>
    intro p s x hx
    simp only [starMatch, List.mem_singleton] at hx
    exact ⟨0, by rw [hx, List.drop_zero]⟩
  | succ n ih =>
    intro p s x hx
    simp only [starMatch, List.mem_append, List.mem_flatMap,
      List.mem_singleton] at hx
    rcases hx with ⟨y, hy, hx2⟩ | rfl
    · obtain ⟨k, hk⟩ := hm p s y hy
      obtain ⟨j, hj⟩ := ih y.1 y.2 x hx2
      exact ⟨k + j, by rw [hj, hk, List.drop_drop]⟩
    · exact ⟨0, (List.drop_zero s).symm⟩

theorem reMatch_drop (fuel : Nat) (r : RE) :
    ∀ (p : Option Char) (s : List Char) (x : Option Char × List Char),
      x ∈ reMatch fuel r p s → ∃ k, x.2 = List.drop k s := by
  induction r with
  | eps =>
    intro p s x hx
    simp only [reMatch, List.mem_singleton] at hx
    exact ⟨0, by rw [hx, List.drop_zero]⟩
  | cls f =>
    intro p s x hx
    cases s with
    | nil => simp [reMatch] at hx
    | cons c rest =>
      simp only [reMatch] at hx
      by_cases hc : f c = true
      · rw [if_pos hc] at hx
        simp only [List.mem_singleton] at hx
        subst hx
        exact ⟨1, rfl⟩

      · rw [if_neg hc] at hx
        cases hx
  | seq a b iha ihb =>
    intro p s x hx
    simp only [reMatch, List.mem_flatMap] at hx
    obtain ⟨y, hy, hx2⟩ := hx
    obtain ⟨k, hk⟩ := iha p s y hy
    obtain ⟨j, hj⟩ := ihb y.1 y.2 x hx2
    exact ⟨k + j, by rw [hj, hk, List.drop_drop]⟩
  | alt a b iha ihb =>
    intro p s x hx
    simp only [reMatch, List.mem_append] at hx
    rcases hx with hx | hx
    · exact iha p s x hx
    · exact ihb p s x hx
  | opt a iha =>
    intro p s x hx
    simp only [reMatch, List.mem_append, List.mem_singleton] at hx
    rcases hx with hx | rfl
    · exact iha p s x hx
    · exact ⟨0, (List.drop_zero s).symm⟩
  | star a iha =>
    intro p s x hx
    simp only [reMatch] at hx
    exact starMatch_drop (reMatch fuel a) (fun p s x hx => iha p s x hx)
      fuel p s x hx
  | wb =>
    intro p s x hx
    simp only [reMatch] at hx
    by_cases hw : wordOpt p = wordHead s
    · rw [if_pos hw] at hx; cases hx
    · rw [if_neg hw] at hx
      simp only [List.mem_singleton] at hx
      exact ⟨0, by rw [hx, List.drop_zero]⟩

theorem findallAux_chars (r : RE) :
    ∀ (fuel : Nat) (p : Option Char) (s : List Char) (m : List Char),
      m ∈ findallAux r fuel p s → ∀ c ∈ m, c ∈ s := by
  intro fuel
  induction fuel with
  | zero =>
    intro p s m hm
    simp [findallAux] at hm
  | succ fuel ih =>
    intro p s m hm c hc
    cases s with
    | nil =>
      simp only [findallAux] at hm
      split at hm <;> simp at hm
    | cons d rest =>
      simp only [findallAux] at hm
      split at hm
      · rename_i hmt
        exact List.mem_cons_of_mem d (ih (some d) rest m hm c hc)
      · rename_i x xs hmt
        by_cases hk : List.length (d :: rest) - x.2.length = 0
        · rw [if_pos hk] at hm
          exact List.mem_cons_of_mem d (ih (some d) rest m hm c hc)
        · rw [if_neg hk] at hm
          rcases List.mem_cons.mp hm with rfl | hm2
          · exact List.mem_of_mem_take hc
          · obtain ⟨j, hj⟩ := reMatch_drop (List.length (d :: rest) + 1) r p
              (d :: rest) x (by rw [hmt]; exact List.mem_cons_self _ _)
            have hcs := ih x.1 x.2 m hm2 c hc
            rw [hj] at hcs
            exact List.mem_of_mem_drop hcs

theorem pyFindall_chars (r : RE) (s : List Char) :
    ∀ m ∈ pyFindall r s, ∀ c ∈ m, c ∈ s :=
  fun m hm c hc => findallAux_chars r (s.length + 1) none s m hm c hc

theorem mem_toLowerL_fixed {c : Char} {s : List Char} (h : c ∈ toLowerL s) :
    pyLowerChar c = c := by
  rcases List.mem_map.mp h with ⟨d, _, rfl⟩
  exact pyLowerChar_idem d

theorem toLowerL_fixed_of_all {k : List Char} (h : ∀ c ∈ k, pyLowerChar c = c) :
    toLowerL k = k := by
  induction k with
  | nil => rfl
  | cons c k ih =>
    show pyLowerChar c :: toLowerL k = c :: k
    rw [h c (List.mem_cons_self _ _), ih (fun d hd => h d (List.mem_cons_of_mem c hd))]

theorem toLowerL_toLowerL (s : List Char) : toLowerL (toLowerL s) = toLowerL s :=
  toLowerL_fixed_of_all (fun _ hc => mem_toLowerL_fixed hc)

theorem nsCandidates_lower (content : List Char) :
    ∀ k ∈ nsCandidates content, toLowerL k = k := by
  intro k hk
  rcases List.mem_append.mp hk with hpat | hterm
  · rcases List.mem_flatten.mp hpat with ⟨ms, hms, hkms⟩
    rcases List.mem_map.mp hms with ⟨p, _, rfl⟩
    apply toLowerL_fixed_of_all
    intro c hc
    exact mem_toLowerL_fixed (pyFindall_chars p (toLowerL content) k hkms c hc)
  · have hmem := List.mem_of_mem_filter hterm
    have hall : ∀ t ∈ nsMedicalTerms, toLowerL t = t := by decide
    exact hall k hmem

theorem dpCandidates_lower (text : List Char) :
    ∀ k ∈ dpCandidates text, toLowerL k = k := by
  intro k hk
  rcases List.mem_append.mp hk with hpat | hdrug
  · rcases List.mem_flatten.mp hpat with ⟨ms, hms, hkms⟩
    rcases List.mem_map.mp hms with ⟨p, _, rfl⟩
    apply toLowerL_fixed_of_all
    intro c hc
    exact mem_toLowerL_fixed (pyFindall_chars p (toLowerL text) k hkms c hc)
  · rcases List.mem_map.mp hdrug with ⟨d, _, rfl⟩
    exact toLowerL_toLowerL d

theorem ciNodup_of_nodup_fixed {l : List (List Char)} (hnd : l.Nodup)
    (hfix : ∀ k ∈ l, toLowerL k = k) : ciNodup l := by
  unfold ciNodup
  refine List.Pairwise.imp_of_mem ?_ hnd
  intro a b ha hb hne
  rw [hfix a ha, hfix b hb]
  exact hne

/-- C6: for every input, the keyword list of the create_new_schema
    extractor has no case insensitive duplicates and at most ten entries,
    and the keyword list of the data_processor extractor has no case
    insensitive duplicates and at most twenty entries, however many matches
    the patterns produce. -/
theorem extract_keywords_bounded (ord : List (List Char) → List (List Char))
    (hord : SetOrder ord) (content text : List Char) :
    (ciNodup (CreateNewSchema.extract_keywords ord content) ∧
      (CreateNewSchema.extract_keywords ord content).length ≤ 10) ∧
    (ciNodup (DataProcessor.extract_keywords ord text) ∧
      (DataProcessor.extract_keywords ord text).length ≤ 20) := by
  constructor
  · constructor
    · show ciNodup ((ord (nsCandidates content)).take 10)
      apply ciNodup_of_nodup_fixed
      · exact ((List.take_sublist _ _).nodup) (hord (nsCandidates content)).1
      · intro k hk
        have hmem := List.mem_of_mem_take hk
        have hcand := ((hord (nsCandidates content)).2 k).mp hmem
        exact nsCandidates_lower content k hcand
    · exact List.length_take_le _ _
  · constructor
    · show ciNodup ((ord (dpCandidates text)).take 20)
      apply ciNodup_of_nodup_fixed
      · exact ((List.take_sublist _ _).nodup) (hord (dpCandidates text)).1
      · intro k hk
        have hmem := List.mem_of_mem_take hk
        have hcand := ((hord (dpCandidates text)).2 k).mp hmem
        exact dpCandidates_lower text k hcand
    · exact List.length_take_le _ _

theorem extract_keywords_bounded_witness :
    (ciNodup (CreateNewSchema.extract_keywords (fun l => l.dedup) "fever".toList) ∧
      (CreateNewSchema.extract_keywords (fun l => l.dedup) "fever".toList).length ≤ 10) ∧
    (ciNodup (DataProcessor.extract_keywords (fun l => l.dedup) "fever".toList) ∧
      (DataProcessor.extract_keywords (fun l => l.dedup) "fever".toList).length ≤ 20) :=
  extract_keywords_bounded (fun l => l.dedup) setOrder_dedup "fever".toList
    "fever".toList
